import Mathlib

/-!
Verification of the duplicate-file cleanup tool (`clean_up.py`, `cleanup_v2.py`).

The two scripts scan a directory tree, hash every file with MD5 in 8192-byte
chunks, group paths by digest, and optionally delete all but one member of
each duplicate group after an interactive confirmation flow.

Shallow embedding conventions:
* file contents are byte lists (`List Nat`);
* the MD5 hex digest is an abstract parameter `md5 : List Nat → String`
  (`hashlib` is external to the repository); incremental `update` calls over
  the successive `f.read(8192)` blocks digest the concatenation of the
  blocks, so hashing is modelled as `md5` applied to the joined chunk list;
* the filesystem seen by `open`/`os.remove` is an association list from
  absolute paths to file states; `os.walk` is modelled over a directory
  tree, yielding the current directory's files first and then descending
  into subdirectories, and yielding nothing at all for a missing or
  non-directory root (Python ignores `scandir` errors when `onerror=None`);
* `stdin` is a list of input lines; every `input(...)` call records the
  prompt it printed and consumes one line; exhausting stdin models the
  `EOFError` crash of `input()`.
-/

/-- State of one regular file: readable with some byte content, or unreadable
(opening/reading it raises `OSError`/`PermissionError`). -/
inductive FileState where
  | readable (content : List Nat)
  | unreadable
deriving DecidableEq

/-- The flat filesystem: absolute path ↦ file state, as seen by `open` and
`os.remove`. -/
abbrev FS := List (String × FileState)

/-- The `hash_to_files` mapping: hex digest ↦ paths appended in insertion
order (Python dicts preserve insertion order of keys). -/
abbrev Index := List (String × List String)

/-- Uncaught Python exceptions that the scripts can die with: an `OSError`
escaping `hash_file` in `clean_up.py`, or `EOFError` from `input()` on a
closed stdin. -/
inductive PyError where
  | ioError
  | eofError
deriving DecidableEq

/-- One block of `iter(lambda: f.read(8192), b'')`: accumulates the current
chunk (reversed) with remaining capacity `cap`, starting a fresh chunk after
8192 bytes. -/
def chunkAux (acc : List Nat) (cap : Nat) : List Nat → List (List Nat)
  | [] => if acc.isEmpty then [] else [acc.reverse]
  | b :: rest =>
    match cap with
    | 0 => acc.reverse :: chunkAux [b] 8191 rest
    | cap' + 1 => chunkAux (b :: acc) cap' rest

/-- The successive 8192-byte blocks read by the hashing loop. -/
def chunksOf8192 (content : List Nat) : List (List Nat) :=
  chunkAux [] 8192 content

theorem chunkAux_flatten (l : List Nat) :
    ∀ (acc : List Nat) (cap : Nat), (chunkAux acc cap l).flatten = acc.reverse ++ l := by
  induction l with
  | nil =>
    intro acc cap
    by_cases h : acc.isEmpty
    · simp [chunkAux, h, List.isEmpty_iff.mp h]
    · simp [chunkAux, h]
  | cons b rest ih =>
    intro acc cap
    match cap with
    | 0 => simp [chunkAux, ih]
    | cap' + 1 => simp [chunkAux, ih]

/-- Feeding the file through MD5 in 8192-byte blocks digests the whole byte
content: the blocks join back to the original content. -/
theorem chunksOf8192_flatten (content : List Nat) :
    (chunksOf8192 content).flatten = content := by
  simp [chunksOf8192, chunkAux_flatten]

/-- Result of `open(file_path, 'rb')` followed by reading everything:
`some content` on success, `none` when the open or read raises. -/
def readFile (fs : FS) (p : String) : Option (List Nat) :=
  match fs.lookup p with
  | some (.readable c) => some c
  | _ => none

/-- The digest produced by the chunked hashing loop shared by both scripts. -/
def streamDigest (md5 : List Nat → String) (content : List Nat) : String :=
  md5 (chunksOf8192 content).flatten

/-- `hash_file` from `clean_up.py` (lines 37-44): opens the file, hashes it in
8192-byte chunks and returns the hex digest.  There is no `try`/`except`: an
`OSError` from `open` or `read` propagates to the caller. -/
def hash_file (md5 : List Nat → String) (fs : FS) (p : String) : Except PyError String :=
  match readFile fs p with
  | some c => .ok (streamDigest md5 c)
  | none => .error .ioError

/-- `process_file` from `cleanup_v2.py` (lines 35-48): same chunked hashing,
but wrapped in `try`/`except (OSError, PermissionError)`, returning
`(file_path, None)` when the file cannot be read. -/
def process_file (md5 : List Nat → String) (fs : FS) (p : String) : String × Option String :=
  match readFile fs p with
  | some c => (p, some (streamDigest md5 c))
  | none => (p, none)

/-- `hash_to_files[file_hash].append(path)` on a `defaultdict(list)`: append
to the existing key's list, or bind a fresh key at the end (Python dicts
keep keys in insertion order). -/
def addEntry : Index → String → String → Index
  | [], h, p => [(h, [p])]
  | (k, ps) :: m, h, p =>
    if k = h then (k, ps ++ [p]) :: m else (k, ps) :: addEntry m h p

/-- The sequential hashing loop of `clean_up.py` (lines 73-76), starting from
the current value `g` of the module-global `hash_to_files`.  An unreadable
file raises out of `hash_file` and aborts the whole loop. -/
def seqAggregate (md5 : List Nat → String) (fs : FS) (g : Index) :
    List String → Except PyError Index
  | [] => .ok g
  | p :: ps =>
    match hash_file md5 fs p with
    | .error e => .error e
    | .ok h => seqAggregate md5 fs (addEntry g h p) ps

/-- The aggregation loop of `cleanup_v2.py` (lines 85-88) over the results
retrieved from `executor.map`: `if file_hash:` skips a result whose hash is
`None` — or, by Python truthiness, the empty string. -/
def addAll (g : Index) : List (String × Option String) → Index
  | [] => g
  | (p, some h) :: rs => if h.isEmpty then addAll g rs else addAll (addEntry g h p) rs
  | (_, none) :: rs => addAll g rs

/-- The parallel phase of `cleanup_v2.py` (lines 81-89): `executor.map`
returns results in submission order, so aggregation consumes
`paths.map (process_file ...)` left to right. -/
def parAggregate (md5 : List Nat → String) (fs : FS) (g : Index)
    (paths : List String) : Index :=
  addAll g (paths.map (process_file md5 fs))

/-- The collision filter (`clean_up.py` line 78, `cleanup_v2.py` line 91):
keep the entries whose path list has more than one element, preserving
dict order. -/
def collisionsOf (m : Index) : Index :=
  m.filter (fun e => 1 < e.2.length)

/-- The hash a path receives from the v2 worker, `None` when unreadable. -/
def hashOf (md5 : List Nat → String) (fs : FS) (p : String) : Option String :=
  (process_file md5 fs p).2

/-- Directory tree as seen by `os.walk`.  A node is either a regular file or
a chain of named directory entries (`dnil` ends the listing of one
directory); a `dcons` child that is not a `file` is a subdirectory with that
entry chain as its own listing. -/
inductive FSTree where
  | file (st : FileState)
  | dnil
  | dcons (name : String) (child : FSTree) (rest : FSTree)

/-- One `os.walk` level: `.1` is the current directory's regular files in
listing order, `.2` the files of its subdirectories, each subtree fully
enumerated (top-down, depth first) in listing order.  A `file` argument is a
non-directory root: `os.walk` yields nothing for it. -/
def walkAux (base : String) : FSTree → List (String × FileState) × List (String × FileState)
  | .file _ => ([], [])
  | .dnil => ([], [])
  | .dcons n child rest =>
    let rw := walkAux base rest
    match child with
    | .file st => ((base ++ "/" ++ n, st) :: rw.1, rw.2)
    | .dnil => (rw.1, rw.2)
    | .dcons _ _ _ =>
      let cw := walkAux (base ++ "/" ++ n) child
      (rw.1, cw.1 ++ cw.2 ++ rw.2)

/-- All regular files under a root, with their states, in the order `os.walk`
yields them: the root's own files first, then each subdirectory recursively. -/
def walkFiles (base : String) (t : FSTree) : List (String × FileState) :=
  (walkAux base t).1 ++ (walkAux base t).2

/-- `get_file_paths` (both scripts): `os.path.abspath(os.path.join(dirpath,
filename))` for every file `os.walk` yields — the directory paths are taken
absolute and normalised, so `abspath` is the identity.  When the root is
missing (`none`) or not a directory, `os.walk` silently yields nothing
(`onerror=None` ignores the `scandir` error), so the result is `[]`. -/
def get_file_paths (root : String) (t : Option FSTree) : List String :=
  match t with
  | none => []
  | some t => (walkFiles root t).map Prod.fst

/-- The flat filesystem induced by the scanned tree: the same path/state
pairs the walk sees, used by the later `open` and `os.remove` calls. -/
def fsOf (root : String) (t : Option FSTree) : FS :=
  match t with
  | none => []
  | some t => walkFiles root t

/-- Path depth: `p.count(os.sep)` with the POSIX separator `'/'`. -/
def sepCount (p : String) : Nat :=
  p.data.count '/'

/-- The comparison `list.sort` performs on the keys `p.count(os.sep)`. -/
def depthLE (a b : String) : Prop :=
  sepCount a ≤ sepCount b

instance : DecidableRel depthLE :=
  fun a b => Nat.decLe (sepCount a) (sepCount b)

/-- `paths.sort(key=lambda p: p.count(os.sep))`: Python's `list.sort` is a
stable sort by the key, which `List.insertionSort` with this relation
implements (stable sorts by the same key agree on their output). -/
def sortByDepth (ps : List String) : List String :=
  ps.insertionSort depthLE

/-- Outcome of one `os.remove` attempt as reported on the console. -/
inductive DelEvent where
  | deleted (p : String)
  | failed (p : String)
deriving DecidableEq

/-- The path a deletion outcome is about. -/
def eventPath : DelEvent → String
  | .deleted p => p
  | .failed p => p

/-- `os.remove(path)`: delete the entry if the path exists, otherwise raise
(the script catches the exception and reports it). -/
def os_remove (fs : FS) (p : String) : Option FS :=
  match fs.lookup p with
  | some _ => some (fs.eraseP (fun e => e.1 == p))
  | none => none

/-- The inner loop of `delete_duplicates`: `for path in paths[1:]`, removing
each path, continuing past failures, recording per-path outcomes in order. -/
def deleteGroup (fs : FS) : List String → FS × List DelEvent
  | [] => (fs, [])
  | p :: ps =>
    match os_remove fs p with
    | some fs1 =>
      let r := deleteGroup fs1 ps
      (r.1, .deleted p :: r.2)
    | none =>
      let r := deleteGroup fs ps
      (r.1, .failed p :: r.2)

/-- `delete_duplicates` (clean_up.py lines 57-66, cleanup_v2.py 59-71): for
each group with more than one path, sort the group's list **in place** by
separator count and delete every path after the first.  The returned index
is the mutated `collisions` mapping (each processed group now holds its
sorted list), alongside the final filesystem and the deletion outcomes. -/
def delete_duplicates (cols : Index) (fs : FS) : Index × FS × List DelEvent :=
  match cols with
  | [] => ([], fs, [])
  | (h, ps) :: rest =>
    if 1 < ps.length then
      let sorted := sortByDepth ps
      let d := deleteGroup fs sorted.tail
      let r := delete_duplicates rest d.1
      ((h, sorted) :: r.1, r.2.1, d.2 ++ r.2.2)
    else
      let r := delete_duplicates rest fs
      ((h, ps) :: r.1, r.2.1, r.2.2)

/-- The text of the first `input(...)` call of `clean_up.py` (line 86).
`cleanup_v2.py` differs only in the prompt text and in catching
`KeyboardInterrupt` there, which is outside this embedding. -/
def proceedPrompt : String := "Proceed to Delete? Hit Enter to Continue: "

/-- The show-details prompt (line 105 / 125). -/
def showPrompt : String := "Do you want to see all the files (absolute paths) which share the same binary data? (yes/no)? "

/-- The final acknowledgement prompt (line 116 / 136). -/
def confirmPrompt : String := "Do you know what you are doing (yes/no)? "

/-- Python treats these as the whitespace `.strip()` removes (ASCII part). -/
def isSpaceChar (c : Char) : Bool :=
  c == ' ' || c == '\t' || c == '\n' || c == '\r' || c == '\x0b' || c == '\x0c'

/-- Lower-case one character, as `str.lower` does on ASCII. -/
def lowerChar (c : Char) : Char :=
  if 65 ≤ c.toNat ∧ c.toNat ≤ 90 then Char.ofNat (c.toNat + 32) else c

/-- `input(...).strip().lower()`: drop whitespace from both ends, then
lower-case, modelled character-wise over the string's contents. -/
def normalizeInput (s : String) : String :=
  ⟨(((s.data.dropWhile isSpaceChar).reverse.dropWhile isSpaceChar).reverse).map lowerChar⟩

/-- The tokens the two validated prompts accept. -/
def yesNoTokens : List String := ["yes", "y", "no", "n"]

/-- One `while True: ... input(prompt) ...` validation loop: returns the
prompts issued (the same prompt repeated once per attempt), the remaining
stdin lines, and the boolean answer — `none` when stdin ran out (`input()`
raises `EOFError`; the prompt had already been printed). -/
def askYesNo (prompt : String) : List String → List String × List String × Option Bool
  | [] => ([prompt], [], none)
  | s :: rest =>
    if normalizeInput s ∈ yesNoTokens then
      ([prompt], rest, some (decide (normalizeInput s ∈ (["yes", "y"] : List String))))
    else
      let r := askYesNo prompt rest
      (prompt :: r.1, r.2.1, r.2.2)

/-- Observable outcome of the interactive deletion flow. -/
structure FlowOut where
  prompts : List String
  confirmAnswer : Option Bool
  cols : Index
  fs : FS
  deleted : List DelEvent
deriving DecidableEq

/-- The final acknowledgement step: ask `confirmPrompt`; on an affirmative
answer run `delete_duplicates`, otherwise print "Aborted deletion." and
change nothing. -/
def confirmPhase (cols : Index) (fs : FS) (pre : List String)
    (inputs : List String) : Option FlowOut :=
  let r := askYesNo confirmPrompt inputs
  match r.2.2 with
  | none => none
  | some true =>
    let d := delete_duplicates cols fs
    some { prompts := pre ++ r.1, confirmAnswer := some true,
           cols := d.1, fs := d.2.1, deleted := d.2.2 }
  | some false =>
    some { prompts := pre ++ r.1, confirmAnswer := some false,
           cols := cols, fs := fs, deleted := [] }

/-- The `if delete:` block shared by both scripts (clean_up.py lines 85-128,
cleanup_v2.py lines 98-148): first an unvalidated `input("Proceed to
Delete? ...")` that accepts anything and always advances; with no collisions
the flow ends there ("Nothing to delete."); otherwise the warning is
printed, the show-details yes/no loop runs unless `--show-duplicates` was
given (an affirmative answer only prints the groups), and finally the
acknowledgement yes/no loop decides whether `delete_duplicates` runs. -/
def interactiveFlow (cols : Index) (fs : FS) (show_collisions : Bool)
    (inputs : List String) : Option FlowOut :=
  match inputs with
  | [] => none
  | _ :: rest =>
    if cols.isEmpty then
      some { prompts := [proceedPrompt], confirmAnswer := none,
             cols := cols, fs := fs, deleted := [] }
    else if show_collisions then
      confirmPhase cols fs [proceedPrompt] rest
    else
      let r := askYesNo showPrompt rest
      match r.2.2 with
      | none => none
      | some _ => confirmPhase cols fs (proceedPrompt :: r.1) r.2.1

/-- Everything observable about one `clean_up(...)` call. -/
structure CleanUpOut where
  index : Index
  cols : Index
  prompts : List String
  deleted : List DelEvent
  fs : FS
  confirmAnswer : Option Bool
deriving DecidableEq

/-- `clean_up` from `clean_up.py` (lines 70-128).  `g` is the value of the
module-global `hash_to_files` when the call starts — `{}`-fresh only for the
first call of a process, since the script never clears it.  Console display
(`display_collisions`, counts, warnings) has no further effect and is not
recorded beyond the prompts. -/
def clean_up (md5 : List Nat → String) (root : String) (t : Option FSTree)
    (g : Index) (show_collisions delete : Bool) (inputs : List String) :
    Except PyError CleanUpOut :=
  let paths := get_file_paths root t
  let fs := fsOf root t
  match seqAggregate md5 fs g paths with
  | .error e => .error e
  | .ok index =>
    let cols := collisionsOf index
    if delete then
      match interactiveFlow cols fs show_collisions inputs with
      | none => .error .eofError
      | some f =>
        .ok { index := index, cols := f.cols, prompts := f.prompts,
              deleted := f.deleted, fs := f.fs, confirmAnswer := f.confirmAnswer }
    else
      .ok { index := index, cols := cols, prompts := [], deleted := [],
            fs := fs, confirmAnswer := none }

/-- `clean_up` from `cleanup_v2.py` (lines 74-148): identical orchestration,
except hashing goes through the process pool (`parAggregate`), whose
`executor.map` retrieves results in submission order. -/
def clean_up_v2 (md5 : List Nat → String) (root : String) (t : Option FSTree)
    (g : Index) (show_collisions delete : Bool) (inputs : List String) :
    Except PyError CleanUpOut :=
  let paths := get_file_paths root t
  let fs := fsOf root t
  let index := parAggregate md5 fs g paths
  let cols := collisionsOf index
  if delete then
    match interactiveFlow cols fs show_collisions inputs with
    | none => .error .eofError
    | some f =>
      .ok { index := index, cols := f.cols, prompts := f.prompts,
            deleted := f.deleted, fs := f.fs, confirmAnswer := f.confirmAnswer }
  else
    .ok { index := index, cols := cols, prompts := [], deleted := [],
          fs := fs, confirmAnswer := none }

/-! ### Properties of the retention sort -/

instance : IsTotal String depthLE :=
  ⟨fun a b => Nat.le_total (sepCount a) (sepCount b)⟩

instance : IsTrans String depthLE :=
  ⟨fun _ _ _ hab hbc => Nat.le_trans hab hbc⟩

/-- The sort reorders the group but never adds or removes a path. -/
theorem sortByDepth_perm (ps : List String) : (sortByDepth ps).Perm ps :=
  List.perm_insertionSort _ ps

/-- The sorted group is ascending in separator count. -/
theorem sortByDepth_sorted (ps : List String) :
    List.Pairwise depthLE (sortByDepth ps) :=
  List.sorted_insertionSort _ ps

/-- Head of the stable sort: it attains the minimum separator count and is
the first element of the original list attaining it (stability). -/
theorem sortByDepth_head_spec :
    ∀ ps : List String, ps ≠ [] →
      ∃ k r, sortByDepth ps = k :: r ∧
        (∀ q ∈ ps, sepCount k ≤ sepCount q) ∧
        ps.find? (fun q => sepCount q == sepCount k) = some k := by
  intro ps
  induction ps with
  | nil => intro h; exact absurd rfl h
  | cons x xs ih =>
    intro _
    rcases xs with _ | ⟨y, ys⟩
    · refine ⟨x, [], rfl, by simp, ?_⟩
      simp [List.find?]
    · obtain ⟨m, r, hs, hmin, hfind⟩ := ih (by simp)
      by_cases hx : depthLE x m
      · refine ⟨x, m :: r, ?_, ?_, ?_⟩
        · show List.orderedInsert depthLE x (sortByDepth (y :: ys)) = x :: m :: r
          rw [hs, List.orderedInsert, if_pos hx]
        · intro q hq
          rcases List.mem_cons.mp hq with h | h
          · exact h ▸ Nat.le_refl _
          · exact Nat.le_trans hx (hmin q h)
        · exact List.find?_cons_of_pos _ (by simp)
      · have hlt : sepCount m < sepCount x := Nat.lt_of_not_le hx
        refine ⟨m, List.orderedInsert depthLE x r, ?_, ?_, ?_⟩
        · show List.orderedInsert depthLE x (sortByDepth (y :: ys)) = _
          rw [hs, List.orderedInsert, if_neg hx]
        · intro q hq
          rcases List.mem_cons.mp hq with h | h
          · exact h ▸ Nat.le_of_lt hlt
          · exact hmin q h
        · rw [List.find?_cons_of_neg _ (by simp [Nat.ne_of_gt hlt]), hfind]

/-! ### Association-list lookup lemmas -/

/-- A successful lookup names an entry of the list. -/
theorem mem_of_lookup {b : Type} {l : List (String × b)} {k : String} {v : b}
    (h : l.lookup k = some v) : (k, v) ∈ l := by
  induction l with
  | nil => simp at h
  | cons e rest ih =>
    obtain ⟨k1, v1⟩ := e
    rw [List.lookup_cons] at h
    cases hbeq : k == k1 with
    | true =>
      rw [hbeq] at h
      simp only at h
      cases h
      have : k = k1 := by simpa using hbeq
      subst this
      exact List.mem_cons_self _ _
    | false =>
      rw [hbeq] at h
      simp only at h
      exact List.mem_cons_of_mem _ (ih h)

/-- With duplicate-free keys, membership determines the lookup result. -/
theorem lookup_of_mem_nodup {b : Type} {l : List (String × b)} {k : String} {v : b}
    (hnd : (l.map Prod.fst).Nodup) (h : (k, v) ∈ l) : l.lookup k = some v := by
  induction l with
  | nil => simp at h
  | cons e rest ih =>
    obtain ⟨k1, v1⟩ := e
    simp only [List.map_cons, List.nodup_cons] at hnd
    rcases List.mem_cons.mp h with h | h
    · cases h
      simp [List.lookup_cons]
    · have hk : (k == k1) = false := by
        simp only [beq_eq_false_iff_ne]
        intro hk
        exact hnd.1 (hk ▸ (List.mem_map_of_mem Prod.fst h))
      rw [List.lookup_cons, hk]
      exact ih hnd.2 h

/-- A key with no entry looks up to `none`. -/
theorem lookup_eq_none_iff {b : Type} {l : List (String × b)} {k : String} :
    l.lookup k = none ↔ ∀ e ∈ l, e.1 ≠ k := by
  induction l with
  | nil => simp
  | cons e rest ih =>
    obtain ⟨k1, v1⟩ := e
    rw [List.lookup_cons]
    cases hbeq : k == k1 with
    | true =>
      have hkk : k = k1 := by simpa using hbeq
      subst hkk
      constructor
      · intro h; exact Option.noConfusion h
      · intro h; exact absurd rfl (h (k, v1) (List.mem_cons_self _ _))
    | false =>
      have hne : k1 ≠ k := Ne.symm (by simpa using hbeq)
      rw [ih]
      constructor
      · intro hr e he
        rcases List.mem_cons.mp he with he | he
        · cases he; exact hne
        · exact hr e he
      · intro hall e he
        exact hall e (List.mem_cons_of_mem _ he)

/-- A present key looks up to something. -/
theorem lookup_isSome_of_mem_keys {b : Type} {l : List (String × b)} {k : String}
    (h : k ∈ l.map Prod.fst) : (l.lookup k).isSome := by
  rcases List.mem_map.mp h with ⟨e, he, hk⟩
  cases hl : l.lookup k with
  | some v => rfl
  | none => exact absurd hk (lookup_eq_none_iff.mp hl e he)

/-- Lookups survive any sublist in the `none` direction. -/
theorem lookup_none_of_sublist {b : Type} {l1 l2 : List (String × b)} {k : String}
    (hs : l1.Sublist l2) (h : l2.lookup k = none) : l1.lookup k = none :=
  lookup_eq_none_iff.mpr fun e he => lookup_eq_none_iff.mp h e (hs.subset he)

/-! ### Lemmas about the fingerprint index operations -/

/-- `addEntry` appends to the looked-up key's list. -/
theorem lookup_addEntry_self (g : Index) (h p : String) :
    (addEntry g h p).lookup h = some ((g.lookup h).getD [] ++ [p]) := by
  induction g with
  | nil => simp [addEntry]
  | cons e rest ih =>
    obtain ⟨k1, v1⟩ := e
    by_cases hk : k1 = h
    · subst hk
      rw [addEntry, if_pos rfl, List.lookup_cons, List.lookup_cons]
      simp
    · rw [addEntry, if_neg hk, List.lookup_cons, List.lookup_cons]
      have : (h == k1) = false := by simp [Ne.symm hk]
      rw [this]
      exact ih

/-- `addEntry` leaves every other key's list unchanged. -/
theorem lookup_addEntry_ne (g : Index) (h p k : String) (hne : k ≠ h) :
    (addEntry g h p).lookup k = g.lookup k := by
  induction g with
  | nil =>
    rw [addEntry, List.lookup_cons]
    have hf : (k == h) = false := by simp [hne]
    rw [hf]
  | cons e rest ih =>
    obtain ⟨k1, v1⟩ := e
    by_cases hk : k1 = h
    · subst hk
      rw [addEntry, if_pos rfl, List.lookup_cons, List.lookup_cons]
      have hf : (k == k1) = false := by simp [hne]
      rw [hf]
    · rw [addEntry, if_neg hk, List.lookup_cons, List.lookup_cons]
      cases hbeq : k == k1 with
      | true => rfl
      | false => exact ih

/-- The keys after `addEntry`: unchanged if the key existed, else appended. -/
theorem keys_addEntry (g : Index) (h p : String) :
    (addEntry g h p).map Prod.fst = g.map Prod.fst ∨
    (addEntry g h p).map Prod.fst = g.map Prod.fst ++ [h] := by
  induction g with
  | nil => right; simp [addEntry]
  | cons e rest ih =>
    obtain ⟨k1, v1⟩ := e
    by_cases hk : k1 = h
    · subst hk
      left
      rw [addEntry, if_pos rfl]
      simp
    · rw [addEntry, if_neg hk]
      rcases ih with ih | ih
      · left; simp [ih]
      · right; simp [ih]

/-- `addEntry` keeps the index's keys duplicate-free. -/
theorem nodupKeys_addEntry {g : Index} (h p : String)
    (hnd : (g.map Prod.fst).Nodup) : ((addEntry g h p).map Prod.fst).Nodup := by
  induction g with
  | nil => simp [addEntry]
  | cons e rest ih =>
    obtain ⟨k1, v1⟩ := e
    simp only [List.map_cons, List.nodup_cons] at hnd
    by_cases hk : k1 = h
    · subst hk
      rw [addEntry, if_pos rfl]
      simpa using hnd
    · rw [addEntry, if_neg hk]
      simp only [List.map_cons, List.nodup_cons]
      refine ⟨?_, ih hnd.2⟩
      intro hmem
      rcases keys_addEntry rest h p with hkk | hkk
      · rw [hkk] at hmem
        exact hnd.1 hmem
      · rw [hkk] at hmem
        rcases List.mem_append.mp hmem with hmem | hmem
        · exact hnd.1 hmem
        · simp at hmem
          exact hk hmem

/-- The list stored under a key, `[]` when the key is absent. -/
def lookupList (m : Index) (h : String) : List String :=
  (m.lookup h).getD []

/-- The paths among a result batch that carry exactly the digest `h`. -/
def hitsOn (h : String) (rs : List (String × Option String)) : List String :=
  (rs.filter (fun r => r.2 == some h)).map Prod.fst

/-- Aggregating a result batch appends, to each nonempty digest's list,
exactly the paths reported with that digest, in retrieval order. -/
theorem lookupList_addAll (h : String) (hne : h ≠ "") :
    ∀ (rs : List (String × Option String)) (g : Index),
      lookupList (addAll g rs) h = lookupList g h ++ hitsOn h rs := by
  intro rs
  induction rs with
  | nil => intro g; simp [addAll, hitsOn]
  | cons r rest ih =>
    intro g
    obtain ⟨p, oh⟩ := r
    match oh with
    | none =>
      rw [addAll]
      rw [ih g]
      simp [hitsOn]
    | some hv =>
      by_cases hemp : hv.isEmpty
      · have hvne : hv ≠ h := by
          intro hEq
          rw [hEq] at hemp
          exact hne ((String.isEmpty_iff _).mp hemp)
        rw [addAll, if_pos hemp, ih g]
        have : ((p, some hv).2 == some h) = false := by simp [hvne]
        simp [hitsOn, this]
      · rw [addAll, if_neg hemp, ih (addEntry g hv p)]
        by_cases hvh : hv = h
        · subst hvh
          have h1 : lookupList (addEntry g hv p) hv = lookupList g hv ++ [p] := by
            simp [lookupList, lookup_addEntry_self]
          rw [h1]
          have : ((p, some hv).2 == some hv) = true := by simp
          simp [hitsOn]
        · have h1 : lookupList (addEntry g hv p) h = lookupList g h := by
            simp [lookupList, lookup_addEntry_ne g hv p h (Ne.symm (by simpa using hvh))]
          rw [h1]
          have : ((p, some hv).2 == some h) = false := by simp [hvh]
          simp [hitsOn, this]

/-- Every key of the aggregated index was a key already or is a nonempty
digest (`if file_hash:` filters out `None` and `""`). -/
theorem mem_keys_addAll :
    ∀ (rs : List (String × Option String)) (g : Index) (h : String),
      h ∈ (addAll g rs).map Prod.fst → h ∈ g.map Prod.fst ∨ h ≠ "" := by
  intro rs
  induction rs with
  | nil => intro g h hmem; exact Or.inl hmem
  | cons r rest ih =>
    intro g h hmem
    obtain ⟨p, oh⟩ := r
    match oh with
    | none => exact ih g h hmem
    | some hv =>
      by_cases hemp : hv.isEmpty
      · rw [addAll, if_pos hemp] at hmem
        exact ih g h hmem
      · rw [addAll, if_neg hemp] at hmem
        rcases ih _ h hmem with hmem | hmem
        · rcases keys_addEntry g hv p with hk | hk
          · rw [hk] at hmem; exact Or.inl hmem
          · rw [hk] at hmem
            rcases List.mem_append.mp hmem with hmem | hmem
            · exact Or.inl hmem
            · right
              simp only [List.mem_singleton] at hmem
              subst hmem
              intro hEq
              exact hemp ((String.isEmpty_iff _).mpr hEq) |>.elim
        · exact Or.inr hmem

/-- Aggregation keeps index keys duplicate-free. -/
theorem nodupKeys_addAll :
    ∀ (rs : List (String × Option String)) (g : Index),
      (g.map Prod.fst).Nodup → ((addAll g rs).map Prod.fst).Nodup := by
  intro rs
  induction rs with
  | nil => intro g hg; exact hg
  | cons r rest ih =>
    intro g hg
    obtain ⟨p, oh⟩ := r
    match oh with
    | none => exact ih g hg
    | some hv =>
      by_cases hemp : hv.isEmpty
      · rw [addAll, if_pos hemp]; exact ih g hg
      · rw [addAll, if_neg hemp]; exact ih _ (nodupKeys_addEntry hv p hg)

/-- On a batch of readable files whose digests are never the empty string,
the sequential loop of `clean_up.py` and the submission-order aggregation of
`cleanup_v2.py` build the same index. -/
theorem seqAggregate_eq_parAggregate (md5 : List Nat → String) (fs : FS) :
    ∀ (paths : List String) (g : Index),
      (∀ p ∈ paths, (readFile fs p).isSome) →
      (∀ c, md5 c ≠ "") →
      seqAggregate md5 fs g paths = .ok (parAggregate md5 fs g paths) := by
  intro paths
  induction paths with
  | nil => intro g _ _; rfl
  | cons p ps ih =>
    intro g hread hmd5
    have hp : (readFile fs p).isSome := hread p (List.mem_cons_self _ _)
    cases hrf : readFile fs p with
    | none => rw [hrf] at hp; exact Bool.noConfusion hp
    | some c =>
      rw [seqAggregate, hash_file, hrf]
      simp only
      rw [ih (addEntry g (streamDigest md5 c) p) (fun q hq => hread q (List.mem_cons_of_mem _ hq)) hmd5]
      have hne : (streamDigest md5 c).isEmpty = false := by
        cases hie : (streamDigest md5 c).isEmpty with
        | false => rfl
        | true => exact absurd ((String.isEmpty_iff _).mp hie) (hmd5 (chunksOf8192 c).flatten)
      show _ = Except.ok (addAll g ((p :: ps).map (process_file md5 fs)))
      rw [List.map_cons]
      conv =>
        rhs
        rw [show process_file md5 fs p = (p, some (streamDigest md5 c)) from by
          rw [process_file, hrf]]
      rw [addAll, if_neg (by rw [hne]; exact Bool.noConfusion)]
      rfl

/-- The sequential loop only ever appends to the global index: whatever a
key held before the call is a prefix of what it holds afterwards. -/
theorem seqAggregate_extends (md5 : List Nat → String) (fs : FS) :
    ∀ (paths : List String) (g : Index) (h : String) (ps : List String) (m : Index),
      g.lookup h = some ps →
      seqAggregate md5 fs g paths = .ok m →
      ∃ qs, m.lookup h = some (ps ++ qs) := by
  intro paths
  induction paths with
  | nil =>
    intro g h ps m hg hagg
    rw [seqAggregate] at hagg
    cases hagg
    exact ⟨[], by simpa using hg⟩
  | cons p rest ih =>
    intro g h ps m hg hagg
    rw [seqAggregate] at hagg
    cases hhf : hash_file md5 fs p with
    | error e => rw [hhf] at hagg; exact Except.noConfusion hagg
    | ok hv =>
      rw [hhf] at hagg
      simp only at hagg
      by_cases hvh : hv = h
      · subst hvh
        have h1 : (addEntry g hv p).lookup hv = some (ps ++ [p]) := by
          rw [lookup_addEntry_self, hg]
          rfl
        obtain ⟨qs, hqs⟩ := ih (addEntry g hv p) hv (ps ++ [p]) m h1 hagg
        exact ⟨[p] ++ qs, by rw [hqs, List.append_assoc]⟩
      · have h1 : (addEntry g hv p).lookup h = some ps := by
          rw [lookup_addEntry_ne g hv p h (Ne.symm hvh), hg]
        exact ih (addEntry g hv p) h ps m h1 hagg

/-! ### Lemmas about deletion -/

/-- `os.remove` never grows the filesystem. -/
theorem deleteGroup_sublist (ps : List String) :
    ∀ fs : FS, ((deleteGroup fs ps).1).Sublist fs := by
  induction ps with
  | nil => intro fs; exact List.Sublist.refl fs
  | cons p rest ih =>
    intro fs
    rw [deleteGroup]
    cases hrm : os_remove fs p with
    | none => exact ih fs
    | some fs1 =>
      have hsub : fs1.Sublist fs := by
        rw [os_remove] at hrm
        cases hl : fs.lookup p with
        | none => rw [hl] at hrm; exact Option.noConfusion hrm
        | some v =>
          rw [hl] at hrm
          simp only [Option.some.injEq] at hrm
          subst hrm
          exact List.eraseP_sublist fs
      exact (ih fs1).trans hsub

/-- The filesystem after `delete_duplicates` is a sublist of the original:
deletion is the only filesystem effect. -/
theorem delete_duplicates_sublist (cols : Index) :
    ∀ fs : FS, ((delete_duplicates cols fs).2.1).Sublist fs := by
  induction cols with
  | nil => intro fs; exact List.Sublist.refl fs
  | cons gp rest ih =>
    intro fs
    obtain ⟨h, ps⟩ := gp
    rw [delete_duplicates]
    by_cases hlen : 1 < ps.length
    · rw [if_pos hlen]
      exact (ih _).trans (deleteGroup_sublist _ fs)
    · rw [if_neg hlen]
      exact ih fs

/-- Removing one path leaves every other path's lookup unchanged. -/
theorem lookup_eraseP_ne (fs : FS) (p q : String) (hne : q ≠ p) :
    (fs.eraseP (fun e => e.1 == p)).lookup q = fs.lookup q := by
  induction fs with
  | nil => rfl
  | cons e rest ih =>
    obtain ⟨k1, v1⟩ := e
    by_cases hk : k1 = p
    · subst hk
      rw [List.eraseP_cons, show ((k1, v1).1 == k1) = true from by simp, cond_true]
      rw [List.lookup_cons]
      have hf : (q == k1) = false := by simp [hne]
      rw [hf]
    · rw [List.eraseP_cons, show ((k1, v1).1 == p) = false from by simp [hk], cond_false]
      rw [List.lookup_cons, List.lookup_cons]
      cases hbeq : q == k1 with
      | true => rfl
      | false => exact ih

/-- With duplicate-free keys, removing a present path empties its lookup. -/
theorem lookup_eraseP_self (fs : FS) (p : String)
    (hnd : (fs.map Prod.fst).Nodup) :
    (fs.eraseP (fun e => e.1 == p)).lookup p = none ∨ fs.lookup p = none := by
  induction fs with
  | nil => exact Or.inr rfl
  | cons e rest ih =>
    obtain ⟨k1, v1⟩ := e
    simp only [List.map_cons, List.nodup_cons] at hnd
    by_cases hk : k1 = p
    · subst hk
      rw [List.eraseP_cons, show ((k1, v1).1 == k1) = true from by simp, cond_true]
      left
      exact lookup_eq_none_iff.mpr fun e he hkk =>
        hnd.1 (hkk ▸ List.mem_map_of_mem Prod.fst he)
    · rw [List.eraseP_cons, show ((k1, v1).1 == p) = false from by simp [hk], cond_false]
      rcases ih hnd.2 with ih1 | ih1
      · left
        rw [List.lookup_cons]
        have hf : (p == k1) = false := by simp [Ne.symm hk]
        rw [hf]
        exact ih1
      · right
        rw [List.lookup_cons]
        have hf : (p == k1) = false := by simp [Ne.symm hk]
        rw [hf]
        exact ih1

/-- The per-group deletion loop reports one outcome per designated path, in
order. -/
theorem deleteGroup_events (ps : List String) :
    ∀ fs : FS, ((deleteGroup fs ps).2).map eventPath = ps := by
  induction ps with
  | nil => intro fs; rfl
  | cons p rest ih =>
    intro fs
    rw [deleteGroup]
    cases hrm : os_remove fs p with
    | none => simp [eventPath, ih]
    | some fs1 => simp [eventPath, ih]

/-- Paths that were not designated keep their lookup through the loop. -/
theorem deleteGroup_lookup_not_mem (ps : List String) :
    ∀ (fs : FS) (q : String), q ∉ ps →
      ((deleteGroup fs ps).1).lookup q = fs.lookup q := by
  induction ps with
  | nil => intro fs q _; rfl
  | cons p rest ih =>
    intro fs q hq
    have hqp : q ≠ p := fun h => hq (h ▸ List.mem_cons_self _ _)
    have hqrest : q ∉ rest := fun h => hq (List.mem_cons_of_mem _ h)
    rw [deleteGroup]
    cases hrm : os_remove fs p with
    | none => exact ih fs q hqrest
    | some fs1 =>
      rw [os_remove] at hrm
      cases hl : fs.lookup p with
      | none => rw [hl] at hrm; exact Option.noConfusion hrm
      | some v =>
        rw [hl] at hrm
        simp only [Option.some.injEq] at hrm
        subst hrm
        rw [ih _ q hqrest]
        exact lookup_eraseP_ne fs p q hqp

/-- Sublists keep their keys duplicate-free. -/
theorem nodupKeys_of_sublist {fs1 fs2 : FS} (hs : fs1.Sublist fs2)
    (hnd : (fs2.map Prod.fst).Nodup) : (fs1.map Prod.fst).Nodup :=
  (hs.map Prod.fst).nodup hnd

/-- After the loop removes a duplicate-free batch of present paths, none of
them is on the filesystem any more. -/
theorem deleteGroup_lookup_none (ps : List String) :
    ∀ fs : FS, (fs.map Prod.fst).Nodup → ps.Nodup →
      (∀ p ∈ ps, (fs.lookup p).isSome) →
      ∀ e ∈ ps, ((deleteGroup fs ps).1).lookup e = none := by
  induction ps with
  | nil => intro fs _ _ _ e he; simp at he
  | cons p rest ih =>
    intro fs hkeys hnd hpres e he
    have hp : (fs.lookup p).isSome := hpres p (List.mem_cons_self _ _)
    cases hl : fs.lookup p with
    | none => rw [hl] at hp; exact Bool.noConfusion hp
    | some v =>
      rw [deleteGroup]
      have hrm : os_remove fs p = some (fs.eraseP (fun e => e.1 == p)) := by
        rw [os_remove, hl]
      rw [hrm]
      simp only
      have hnone : (fs.eraseP (fun e => e.1 == p)).lookup p = none := by
        rcases lookup_eraseP_self fs p hkeys with h | h
        · exact h
        · rw [h] at hl; exact Option.noConfusion hl
      simp only [List.nodup_cons] at hnd
      rcases List.mem_cons.mp he with he | he
      · subst he
        rw [deleteGroup_lookup_not_mem rest _ e hnd.1]
        exact hnone
      · refine ih (fs.eraseP (fun e => e.1 == p)) ?_ hnd.2 ?_ e he
        · exact nodupKeys_of_sublist (List.eraseP_sublist fs) hkeys
        · intro q hq
          have hqp : q ≠ p := fun hEq => hnd.1 (hEq ▸ hq)
          rw [lookup_eraseP_ne fs p q hqp]
          exact hpres q (List.mem_cons_of_mem _ hq)

/-- A path designated by none of the processed groups keeps its lookup
through the whole of `delete_duplicates`. -/
theorem delete_duplicates_lookup_preserved (cols : Index) :
    ∀ (fs : FS) (q : String),
      (∀ gp ∈ cols, q ∉ (sortByDepth gp.2).tail) →
      ((delete_duplicates cols fs).2.1).lookup q = fs.lookup q := by
  induction cols with
  | nil => intro fs q _; rfl
  | cons gp rest ih =>
    intro fs q hq
    obtain ⟨h1, l1⟩ := gp
    rw [delete_duplicates]
    by_cases hlen : 1 < l1.length
    · rw [if_pos hlen]
      simp only
      rw [ih _ q (fun gp2 hgp2 => hq gp2 (List.mem_cons_of_mem _ hgp2))]
      exact deleteGroup_lookup_not_mem _ fs q (hq (h1, l1) (List.mem_cons_self _ _))
    · rw [if_neg hlen]
      exact ih fs q (fun gp2 hgp2 => hq gp2 (List.mem_cons_of_mem _ hgp2))

/-- Core of the deletion correctness: if the groups carry exactly the paths
of their own fingerprint (`hchar`), group keys and filesystem keys are
duplicate-free, every designated path is present, and `(h0, E)` is one of
the groups with at least two members whose stable sort starts with `k`,
then after `delete_duplicates` the keeper `k` is untouched and every other
member of `E` is gone. -/
theorem delete_duplicates_target (hashKey : String → Option String) :
    ∀ (cols : Index) (fs : FS),
      (fs.map Prod.fst).Nodup →
      (cols.map Prod.fst).Nodup →
      (∀ gp ∈ cols, ∀ p ∈ gp.2, hashKey p = some gp.1) →
      (∀ gp ∈ cols, gp.2.Nodup) →
      (∀ gp ∈ cols, ∀ p ∈ gp.2, (fs.lookup p).isSome) →
      ∀ h0 E k r, (h0, E) ∈ cols → 1 < E.length → sortByDepth E = k :: r →
        ((delete_duplicates cols fs).2.1.lookup k = fs.lookup k ∧
         ∀ e ∈ r, (delete_duplicates cols fs).2.1.lookup e = none) := by
  intro cols
  induction cols with
  | nil =>
    intro fs _ _ _ _ _ h0 E k r hmem
    simp at hmem
  | cons gp rest ih =>
    intro fs hfskeys hcolkeys hchar hgnodup hpres h0 E k r hmem hlen hsort
    obtain ⟨h1, l1⟩ := gp
    have hperm : (k :: r).Perm E := hsort ▸ sortByDepth_perm E
    have hkE : k ∈ E := hperm.mem_iff.mp (List.mem_cons_self _ _)
    have hrE : ∀ e ∈ r, e ∈ E := fun e he =>
      hperm.mem_iff.mp (List.mem_cons_of_mem _ he)
    simp only [List.map_cons, List.nodup_cons] at hcolkeys
    rcases List.mem_cons.mp hmem with hhead | hrest
    · -- the target group is at the head
      injection hhead with hh1 hl1
      subst hh1
      subst hl1
      have hEnodup : E.Nodup := hgnodup (h0, E) (List.mem_cons_self _ _)
      have hkrnodup : (k :: r).Nodup := (hperm.nodup_iff).mpr hEnodup
      simp only [List.nodup_cons] at hkrnodup
      rw [delete_duplicates, if_pos hlen]
      simp only
      rw [hsort]
      simp only [List.tail_cons]
      have hpresE : ∀ p ∈ E, (fs.lookup p).isSome :=
        fun p hp => hpres (h0, E) (List.mem_cons_self _ _) p hp
      have hfs1k : ((deleteGroup fs r).1).lookup k = fs.lookup k :=
        deleteGroup_lookup_not_mem r fs k hkrnodup.1
      have hfs1r : ∀ e ∈ r, ((deleteGroup fs r).1).lookup e = none :=
        deleteGroup_lookup_none r fs hfskeys hkrnodup.2
          (fun p hp => hpresE p (hrE p hp))
      constructor
      · -- the keeper is in no other group, so the rest leave it alone
        rw [delete_duplicates_lookup_preserved rest _ k ?_]
        · exact hfs1k
        · intro gp2 hgp2 hk2
          have hk2mem : k ∈ gp2.2 :=
            ((sortByDepth_perm gp2.2).mem_iff).mp
              ((List.tail_sublist _).subset hk2)
          have h1k := hchar (h0, E) (List.mem_cons_self _ _) k hkE
          have h2k := hchar gp2 (List.mem_cons_of_mem _ hgp2) k hk2mem
          have : gp2.1 = h0 := by
            rw [h1k] at h2k
            exact (Option.some.injEq .. ▸ h2k).symm
          exact hcolkeys.1 (this ▸ List.mem_map_of_mem Prod.fst hgp2)
      · intro e he
        exact lookup_none_of_sublist (delete_duplicates_sublist rest _) (hfs1r e he)
    · -- the target group is further down; the head group touches none of it
      have hstep : ∀ fs1 : FS, (fs1.map Prod.fst).Nodup →
          (∀ gp2 ∈ rest, ∀ p ∈ gp2.2, (fs1.lookup p).isSome) →
          ((delete_duplicates rest fs1).2.1.lookup k = fs1.lookup k ∧
           ∀ e ∈ r, (delete_duplicates rest fs1).2.1.lookup e = none) := by
        intro fs1 hnd1 hpres1
        exact ih fs1 hnd1 hcolkeys.2
          (fun gp2 hgp2 => hchar gp2 (List.mem_cons_of_mem _ hgp2))
          (fun gp2 hgp2 => hgnodup gp2 (List.mem_cons_of_mem _ hgp2))
          hpres1 h0 E k r hrest hlen hsort
      have hdisj : ∀ gp2 ∈ rest, ∀ p ∈ gp2.2, p ∉ (sortByDepth l1).tail := by
        intro gp2 hgp2 p hp hptail
        have hpl1 : p ∈ l1 :=
          ((sortByDepth_perm l1).mem_iff).mp ((List.tail_sublist _).subset hptail)
        have h1p := hchar (h1, l1) (List.mem_cons_self _ _) p hpl1
        have h2p := hchar gp2 (List.mem_cons_of_mem _ hgp2) p hp
        have : gp2.1 = h1 := by
          rw [h1p] at h2p
          exact (Option.some.injEq .. ▸ h2p).symm
        exact hcolkeys.1 (this ▸ List.mem_map_of_mem Prod.fst hgp2)
      rw [delete_duplicates]
      by_cases hlen1 : 1 < l1.length
      · rw [if_pos hlen1]
        simp only
        obtain ⟨hs1, hs2⟩ := hstep (deleteGroup fs (sortByDepth l1).tail).1
          (nodupKeys_of_sublist (deleteGroup_sublist _ fs) hfskeys)
          (fun gp2 hgp2 p hp => by
            rw [deleteGroup_lookup_not_mem _ fs p (hdisj gp2 hgp2 p hp)]
            exact hpres gp2 (List.mem_cons_of_mem _ hgp2) p hp)
        refine ⟨hs1.trans ?_, hs2⟩
        exact deleteGroup_lookup_not_mem _ fs k (hdisj (h0, E) hrest k hkE)
      · rw [if_neg hlen1]
        exact hstep fs hfskeys (fun gp2 hgp2 p hp => hpres gp2 (List.mem_cons_of_mem _ hgp2) p hp)

/-! ### Characterising the parallel index -/

/-- Workers echo their path back, so a batch produced by mapping
`process_file` hits key `h` exactly at the paths whose hash is `h`. -/
theorem hitsOn_map (h : String) (f : String → String × Option String)
    (hf : ∀ p, (f p).1 = p) :
    ∀ paths : List String,
      hitsOn h (paths.map f) = paths.filter (fun p => (f p).2 == some h) := by
  intro paths
  induction paths with
  | nil => rfl
  | cons p ps ih =>
    rw [hitsOn] at ih
    rw [List.map_cons, hitsOn, List.filter_cons, List.filter_cons]
    by_cases hp : ((f p).2 == some h) = true
    · rw [if_pos hp, if_pos hp, List.map_cons, hf p, ih]
    · rw [if_neg hp, if_neg hp, ih]

/-- Every entry of the v2 index consists of a nonempty digest together with
exactly the scanned paths bearing that digest, in scan order. -/
theorem parAggregate_lookup_spec (md5 : List Nat → String) (fs : FS)
    (paths : List String) (h : String) (l : List String)
    (hl : (parAggregate md5 fs [] paths).lookup h = some l) :
    h ≠ "" ∧ l = paths.filter (fun p => hashOf md5 fs p == some h) := by
  have hkey : h ∈ (parAggregate md5 fs [] paths).map Prod.fst :=
    List.mem_map.mpr ⟨(h, l), mem_of_lookup hl, rfl⟩
  have hne : h ≠ "" := by
    rcases mem_keys_addAll (paths.map (process_file md5 fs)) [] h hkey with hmem | hmem
    · simp at hmem
    · exact hmem
  refine ⟨hne, ?_⟩
  have hspec : lookupList (parAggregate md5 fs [] paths) h =
      lookupList ([] : Index) h ++ hitsOn h (paths.map (process_file md5 fs)) :=
    lookupList_addAll h hne (paths.map (process_file md5 fs)) []
  rw [lookupList, lookupList, hl] at hspec
  simp only [List.lookup_nil, Option.getD_none, Option.getD_some, List.nil_append] at hspec
  rw [hspec, hitsOn_map h (process_file md5 fs) (fun p => by
    rw [process_file]
    cases readFile fs p <;> rfl)]
  rfl

/-- Keys of the v2 index are duplicate-free. -/
theorem parAggregate_nodupKeys (md5 : List Nat → String) (fs : FS)
    (paths : List String) :
    ((parAggregate md5 fs [] paths).map Prod.fst).Nodup :=
  nodupKeys_addAll (paths.map (process_file md5 fs)) [] (by simp)

/-- Filtering the collision groups keeps each surviving key's list. -/
theorem lookup_collisionsOf (m : Index) (h : String) (l : List String)
    (hl : m.lookup h = some l) (hlen : 1 < l.length) :
    (collisionsOf m).lookup h = some l := by
  induction m with
  | nil => simp at hl
  | cons e rest ih =>
    obtain ⟨k1, v1⟩ := e
    rw [List.lookup_cons] at hl
    cases hbeq : h == k1 with
    | true =>
      rw [hbeq] at hl
      simp only at hl
      cases hl
      rw [collisionsOf, List.filter_cons, if_pos (by simpa using hlen)]
      rw [List.lookup_cons, hbeq]
    | false =>
      rw [hbeq] at hl
      simp only at hl
      rw [collisionsOf, List.filter_cons]
      by_cases hkeep : 1 < v1.length
      · rw [if_pos (by simpa using hkeep), List.lookup_cons, hbeq]
        exact ih hl
      · rw [if_neg (by simpa using hkeep)]
        exact ih hl

/-- Collision groups are (key, list) entries of the index with ≥ 2 paths. -/
theorem mem_collisionsOf {m : Index} {gp : String × List String}
    (h : gp ∈ collisionsOf m) : gp ∈ m ∧ 1 < gp.2.length := by
  have := List.of_mem_filter h
  exact ⟨List.mem_of_mem_filter h, by simpa using this⟩

/-- The collision filter keeps keys duplicate-free. -/
theorem collisionsOf_nodupKeys {m : Index} (hnd : (m.map Prod.fst).Nodup) :
    ((collisionsOf m).map Prod.fst).Nodup :=
  ((List.filter_sublist m).map Prod.fst).nodup hnd

/-! ### Concrete artifacts used by counterexamples and witnesses -/

/-- A concrete stand-in for the MD5 hex digest used on concrete inputs: any
function injective on the contents at hand exercises the pipeline the same
way the real digest does. -/
def md5c : List Nat → String := fun c => toString c

/-- A root directory holding two duplicate one-byte files `a` and `b`. -/
def tcDup : FSTree :=
  .dcons "a" (.file (.readable [7])) (.dcons "b" (.file (.readable [7])) .dnil)

/-- A filesystem with one unreadable file and one readable file. -/
def fsU : FS := [("/r/u", FileState.unreadable), ("/r/b", FileState.readable [1])]

/-- The collision mapping of a run, `[]` if the run died. -/
def colsOfRun (r : Except PyError CleanUpOut) : Index :=
  match r with
  | .ok o => o.cols
  | .error _ => []

/-- The final global index of a run, `[]` if the run died. -/
def idxOfRun (r : Except PyError CleanUpOut) : Index :=
  match r with
  | .ok o => o.index
  | .error _ => []

/-! ### Claim C1 -/

/-- C1: for every duplicate group, the keeper chosen by the retention step
is the path with the fewest separator characters; on ties the earliest path
in the group's original order wins (the sort is stable), and exactly the
non-keeper paths are designated for deletion (`delete_duplicates` attempts
to remove precisely the tail of the sorted group, which together with the
keeper is a permutation of the group). -/
theorem c1_retention_policy (h : String) (ps : List String) (fs : FS)
    (hlen : 1 < ps.length) :
    ∃ k r, sortByDepth ps = k :: r ∧
      (∀ q ∈ ps, sepCount k ≤ sepCount q) ∧
      ps.find? (fun q => sepCount q == sepCount k) = some k ∧
      (k :: r).Perm ps ∧
      ((delete_duplicates [(h, ps)] fs).2.2).map eventPath = r := by
  have hne : ps ≠ [] := by
    intro hnil
    rw [hnil] at hlen
    simp at hlen
  obtain ⟨k, r, hs, hmin, hfind⟩ := sortByDepth_head_spec ps hne
  refine ⟨k, r, hs, hmin, hfind, hs ▸ sortByDepth_perm ps, ?_⟩
  rw [delete_duplicates, if_pos hlen]
  simp only [delete_duplicates]
  rw [List.append_nil, deleteGroup_events, hs]
  rfl

/-- Witness for C1 at a concrete group with a depth tie: in
`["/a/b/c", "/a/b", "/x/y"]` the minimum depth 2 is shared by `"/a/b"` and
`"/x/y"`, and the earlier `"/a/b"` is kept. -/
theorem c1_retention_policy_witness :
    1 < (["/a/b/c", "/a/b", "/x/y"] : List String).length ∧
    (∃ k r, sortByDepth ["/a/b/c", "/a/b", "/x/y"] = k :: r ∧
      (∀ q ∈ (["/a/b/c", "/a/b", "/x/y"] : List String), sepCount k ≤ sepCount q) ∧
      (["/a/b/c", "/a/b", "/x/y"] : List String).find?
        (fun q => sepCount q == sepCount k) = some k ∧
      (k :: r).Perm ["/a/b/c", "/a/b", "/x/y"] ∧
      ((delete_duplicates [("h", ["/a/b/c", "/a/b", "/x/y"])] []).2.2).map eventPath = r) :=
  ⟨by decide, c1_retention_policy "h" ["/a/b/c", "/a/b", "/x/y"] [] (by decide)⟩

/-! ### Claim C2 -/

/-- Counterexample to C2: in `clean_up.py` a read failure does **not** yield
a "no fingerprint" result — `hash_file` propagates the exception, and the
sequential batch aborts, so the remaining readable path `"/r/b"` is never
hashed (the loop returns an error instead of an index). -/
theorem c2_counterexample :
    hash_file md5c fsU "/r/u" = .error .ioError ∧
    seqAggregate md5c fsU [] ["/r/u", "/r/b"] = .error .ioError := by
  exact ⟨rfl, rfl⟩

/-- C2 amended: the failure isolation holds for the parallel version only.
`process_file` (cleanup_v2.py) converts an open/read failure into
`(path, None)`; that path is excluded from the index and the remaining
paths aggregate exactly as if it had not been scanned — the batch always
completes.  `clean_up.py`'s `hash_file` instead propagates the error and
aborts the sequential batch. -/
theorem c2_amended_v2_isolation (md5 : List Nat → String) (fs : FS)
    (u : String) (xs ys : List String) (g : Index)
    (hu : readFile fs u = none) :
    process_file md5 fs u = (u, none) ∧
    parAggregate md5 fs g (xs ++ u :: ys) = parAggregate md5 fs g (xs ++ ys) := by
  have hpf : process_file md5 fs u = (u, none) := by
    rw [process_file, hu]
  refine ⟨hpf, ?_⟩
  induction xs generalizing g with
  | nil =>
    rw [parAggregate, parAggregate]
    simp only [List.nil_append, List.map_cons]
    rw [hpf, addAll]
  | cons x xs ih =>
    rw [parAggregate, parAggregate]
    simp only [List.cons_append, List.map_cons]
    cases hx : process_file md5 fs x with
    | mk p oh =>
      match oh with
      | none =>
        rw [addAll, addAll]
        exact ih g
      | some hv =>
        by_cases hemp : hv.isEmpty
        · rw [addAll, if_pos hemp, addAll, if_pos hemp]
          exact ih g
        · rw [addAll, if_neg hemp, addAll, if_neg hemp]
          exact ih (addEntry g hv p)

/-- Witness for C2's amended statement at the concrete filesystem `fsU`. -/
theorem c2_amended_v2_isolation_witness :
    readFile fsU "/r/u" = none ∧
    (process_file md5c fsU "/r/u" = ("/r/u", none) ∧
     parAggregate md5c fsU [] (["/r/a1"] ++ "/r/u" :: ["/r/b"]) =
       parAggregate md5c fsU [] (["/r/a1"] ++ ["/r/b"])) :=
  ⟨rfl, c2_amended_v2_isolation md5c fsU "/r/u" ["/r/a1"] ["/r/b"] [] rfl⟩

/-! ### Claim C3 -/

/-- Counterexample to C3: pointing `clean_up` at a root that does not exist
(`none`) does not fail at all — `os.walk` silently yields nothing, the run
returns normally with an empty index, zero collision groups, no prompts and
no deletions, instead of aborting with a directory-not-found error. -/
theorem c3_counterexample :
    clean_up md5c "/missing" none [] false false [] =
      .ok { index := [], cols := [], prompts := [], deleted := [], fs := [],
            confirmAnswer := none } := by
  rfl

/-- C3 amended: a root that does not exist or is not a directory is treated
as an empty tree.  `get_file_paths` returns `[]` (errors from `scandir` are
ignored by `os.walk` with the default `onerror=None`), and a fresh run over
such a root completes normally with an empty index and zero duplicate
groups; no directory-not-found failure exists anywhere in the scripts. -/
theorem c3_amended_missing_root_scans_empty (md5 : List Nat → String)
    (root : String) (sc : Bool) (inputs : List String) (st : FileState) :
    get_file_paths root none = [] ∧
    get_file_paths root (some (.file st)) = [] ∧
    clean_up md5 root none [] sc false inputs =
      .ok { index := [], cols := [], prompts := [], deleted := [], fs := [],
            confirmAnswer := none } ∧
    clean_up md5 root (some (.file st)) [] sc false inputs =
      .ok { index := [], cols := [], prompts := [], deleted := [], fs := [],
            confirmAnswer := none } := by
  exact ⟨rfl, rfl, rfl, rfl⟩

/-! ### Claim C4 -/

/-- Counterexample to C4: on an empty directory a `--delete` run performs
zero deletions but does **not** issue zero prompts — the unconditional
`input("Proceed to Delete? ...")` is issued before the collision check. -/
theorem c4_counterexample :
    clean_up md5c "/r" (some .dnil) [] false true [""] =
      .ok { index := [], cols := [], prompts := [proceedPrompt], deleted := [],
            fs := [], confirmAnswer := none } ∧
    proceedPrompt ≠ "" := by
  exact ⟨rfl, by decide⟩

/-- C4 amended: when the scan produces no duplicate group, a `--delete` run
performs zero deletions and asks none of the yes/no confirmation prompts,
but it does issue the single unvalidated "Proceed to Delete?" prompt before
noticing there is nothing to delete. -/
theorem c4_amended_no_groups_single_prompt (md5 : List Nat → String)
    (root : String) (t : Option FSTree) (g : Index) (sc : Bool)
    (i : String) (rest : List String) (m : Index)
    (hagg : seqAggregate md5 (fsOf root t) g (get_file_paths root t) = .ok m)
    (hcols : collisionsOf m = []) :
    clean_up md5 root t g sc true (i :: rest) =
      .ok { index := m, cols := [], prompts := [proceedPrompt], deleted := [],
            fs := fsOf root t, confirmAnswer := none } := by
  rw [clean_up]
  simp only
  rw [hagg]
  simp only [hcols]
  rw [interactiveFlow]
  simp [hcols]

/-- Witness for C4's amended statement: an empty directory under a fresh
global index. -/
theorem c4_amended_no_groups_single_prompt_witness :
    seqAggregate md5c (fsOf "/r" (some .dnil)) []
        (get_file_paths "/r" (some .dnil)) = .ok [] ∧
    collisionsOf ([] : Index) = [] ∧
    clean_up md5c "/r" (some .dnil) [] false true ["x"] =
      .ok { index := [], cols := [], prompts := [proceedPrompt], deleted := [],
            fs := fsOf "/r" (some .dnil), confirmAnswer := none } :=
  ⟨rfl, rfl, c4_amended_no_groups_single_prompt md5c "/r" (some .dnil) [] false
    "x" [] [] rfl rfl⟩

/-! ### Claim C5 -/

/-- Counterexample to C5: the unrecognised token `"whatever"` at the
"Proceed to Delete?" prompt is not re-prompted — the flow advances straight
to the acknowledgement prompt, so not every prompt of the interactive flow
re-prompts on input outside yes/y/no/n. -/
theorem c5_counterexample :
    normalizeInput "whatever" ∉ yesNoTokens ∧
    (interactiveFlow [("h", ["/a", "/b"])] [] true ["whatever", "n"]).map
        (fun f => f.prompts) = some [proceedPrompt, confirmPrompt] := by
  exact ⟨by decide, rfl⟩

/-- C5 amended: the two *validated* prompts (show-details and final
acknowledgement, both driven by `askYesNo`) accept exactly the tokens
yes/y/no/n after `strip().lower()`; any other input re-issues the same
prompt and leaves the interaction state unchanged — the answer and the
remaining input stream are those of the tail.  The initial "Proceed to
Delete?" prompt, by contrast, is unvalidated: it accepts any input and
always advances. -/
theorem c5_amended_validated_prompts (prompt s : String) (rest : List String) :
    askYesNo prompt (s :: rest) =
      if normalizeInput s ∈ yesNoTokens then
        ([prompt], rest, some (decide (normalizeInput s ∈ (["yes", "y"] : List String))))
      else
        (prompt :: (askYesNo prompt rest).1,
         (askYesNo prompt rest).2.1, (askYesNo prompt rest).2.2) := by
  rw [askYesNo]

/-! ### Claim C6 -/

/-- If the acknowledgement phase resolves to "no", it touches nothing. -/
theorem confirmPhase_decline (cols : Index) (fs : FS) (pre : List String)
    (inputs : List String) (out : FlowOut)
    (hcp : confirmPhase cols fs pre inputs = some out)
    (hans : out.confirmAnswer = some false) :
    out.fs = fs ∧ out.deleted = [] := by
  rw [confirmPhase] at hcp
  cases h2 : (askYesNo confirmPrompt inputs).2.2 with
  | none => rw [h2] at hcp; exact Option.noConfusion hcp
  | some b =>
    rw [h2] at hcp
    cases b
    · simp only at hcp
      cases hcp
      exact ⟨rfl, rfl⟩
    · simp only at hcp
      cases hcp
      simp at hans

/-- If the whole interactive flow ends with the final prompt answered
negatively, the filesystem is untouched and nothing was deleted. -/
theorem interactiveFlow_decline (cols : Index) (fs : FS) (sc : Bool)
    (inputs : List String) (out : FlowOut)
    (hif : interactiveFlow cols fs sc inputs = some out)
    (hans : out.confirmAnswer = some false) :
    out.fs = fs ∧ out.deleted = [] := by
  rcases inputs with _ | ⟨i, rest⟩
  · rw [interactiveFlow] at hif
    exact Option.noConfusion hif
  · rw [interactiveFlow] at hif
    by_cases hemp : cols.isEmpty
    · rw [if_pos hemp] at hif
      cases hif
      simp at hans
    · rw [if_neg hemp] at hif
      by_cases hsc : sc
      · rw [if_pos hsc] at hif
        exact confirmPhase_decline _ _ _ _ _ hif hans
      · rw [if_neg hsc] at hif
        simp only at hif
        cases h1 : (askYesNo showPrompt rest).2.2 with
        | none => rw [h1] at hif; exact Option.noConfusion hif
        | some b =>
          rw [h1] at hif
          exact confirmPhase_decline _ _ _ _ _ hif hans

/-- C6: whenever a `--delete` run terminates normally with the final
explicit-acknowledgement prompt answered negatively, no file was deleted
and the filesystem is exactly what it was before the confirmation flow
began (which is also the scanned state: nothing before the flow mutates
it). -/
theorem c6_decline_leaves_fs_unchanged (md5 : List Nat → String)
    (root : String) (t : Option FSTree) (g : Index) (sc : Bool)
    (inputs : List String) (out : CleanUpOut)
    (hrun : clean_up md5 root t g sc true inputs = .ok out)
    (hans : out.confirmAnswer = some false) :
    out.fs = fsOf root t ∧ out.deleted = [] := by
  rw [clean_up] at hrun
  simp only at hrun
  cases hagg : seqAggregate md5 (fsOf root t) g (get_file_paths root t) with
  | error e => rw [hagg] at hrun; exact Except.noConfusion hrun
  | ok m =>
    rw [hagg] at hrun
    simp only [if_true] at hrun
    cases hif : interactiveFlow (collisionsOf m) (fsOf root t) sc inputs with
    | none => rw [hif] at hrun; exact Except.noConfusion hrun
    | some f =>
      rw [hif] at hrun
      simp only at hrun
      cases hrun
      exact interactiveFlow_decline _ _ _ _ _ hif hans

/-- Witness for C6: a concrete declined run over two duplicate files. -/
theorem c6_decline_leaves_fs_unchanged_witness :
    clean_up md5c "/r" (some tcDup) [] true true ["", "n"] =
      .ok { index := [("[7]", ["/r/a", "/r/b"])],
            cols := [("[7]", ["/r/a", "/r/b"])],
            prompts := [proceedPrompt, confirmPrompt], deleted := [],
            fs := [("/r/a", .readable [7]), ("/r/b", .readable [7])],
            confirmAnswer := some false } ∧
    ({ index := [("[7]", ["/r/a", "/r/b"])],
       cols := [("[7]", ["/r/a", "/r/b"])],
       prompts := [proceedPrompt, confirmPrompt], deleted := [],
       fs := [("/r/a", .readable [7]), ("/r/b", .readable [7])],
       confirmAnswer := some false } : CleanUpOut).fs = fsOf "/r" (some tcDup) ∧
    ({ index := [("[7]", ["/r/a", "/r/b"])],
       cols := [("[7]", ["/r/a", "/r/b"])],
       prompts := [proceedPrompt, confirmPrompt], deleted := [],
       fs := [("/r/a", .readable [7]), ("/r/b", .readable [7])],
       confirmAnswer := some false } : CleanUpOut).deleted = [] := by
  refine ⟨rfl, ?_⟩
  exact c6_decline_leaves_fs_unchanged md5c "/r" (some tcDup) [] true ["", "n"]
    _ rfl rfl

/-! ### Claim C7 -/

/-- C7: over a path list whose files are all readable, the v2 coordinator —
which retrieves `executor.map` results in submission order — builds exactly
the fingerprint index of the sequential loop (same keys, same per-key path
order), hence equal collision groups, and whole `delete=False` runs of the
two scripts coincide.  (The `∀ c, md5 c ≠ ""` premise records that MD5 hex
digests are never the empty string, which v2's `if file_hash:` truthiness
test would drop.) -/
theorem c7_parallel_matches_sequential (md5 : List Nat → String)
    (root : String) (t : Option FSTree) (g : Index) (sc : Bool)
    (inputs : List String)
    (hread : ∀ p ∈ get_file_paths root t, (readFile (fsOf root t) p).isSome)
    (hmd5 : ∀ c, md5 c ≠ "") :
    seqAggregate md5 (fsOf root t) g (get_file_paths root t) =
      .ok (parAggregate md5 (fsOf root t) g (get_file_paths root t)) ∧
    clean_up md5 root t g sc false inputs =
      clean_up_v2 md5 root t g sc false inputs := by
  have h1 := seqAggregate_eq_parAggregate md5 (fsOf root t)
    (get_file_paths root t) g hread hmd5
  refine ⟨h1, ?_⟩
  rw [clean_up, clean_up_v2]
  simp only
  rw [h1]

/-- A digest stand-in that is never the empty string. -/
def md5k : List Nat → String := fun _ => "h"

/-- Witness for C7 at a concrete all-readable tree. -/
theorem c7_parallel_matches_sequential_witness :
    (∀ p ∈ get_file_paths "/r" (some tcDup),
        (readFile (fsOf "/r" (some tcDup)) p).isSome) ∧
    (∀ c, md5k c ≠ "") ∧
    (seqAggregate md5k (fsOf "/r" (some tcDup)) []
        (get_file_paths "/r" (some tcDup)) =
      .ok (parAggregate md5k (fsOf "/r" (some tcDup)) []
        (get_file_paths "/r" (some tcDup))) ∧
    clean_up md5k "/r" (some tcDup) [] false false [] =
      clean_up_v2 md5k "/r" (some tcDup) [] false false []) :=
  ⟨by decide, fun c => by show ("h" : String) ≠ ""; decide,
   c7_parallel_matches_sequential md5k "/r" (some tcDup) [] false []
     (by decide) (fun c => by show ("h" : String) ≠ ""; decide)⟩

/-! ### Claim C8 -/

/-- Counterexample to C8: the retention step *does* mutate the group's path
collection — `paths.sort(...)` reorders the list held by the collisions
mapping in place, so after `delete_duplicates` the group's collection
differs from the original. -/
theorem c8_counterexample :
    (delete_duplicates [("h", ["/a/b/c", "/a/b"])] []).1 ≠
      [("h", ["/a/b/c", "/a/b"])] := by
  decide

/-- C8 amended: the keeper/to-delete partition is a pure, deterministic
function of the group values, and beyond the removals themselves the only
state effect is the in-place reorder: afterwards every processed group
holds the depth-sorted permutation of its original collection (same paths,
new order), and the filesystem has only lost entries. -/
theorem c8_amended_sort_mutates_in_place (cols : Index) (fs : FS) :
    (delete_duplicates cols fs).1 =
      cols.map (fun gp => if 1 < gp.2.length then (gp.1, sortByDepth gp.2) else gp) ∧
    (∀ ps : List String, (sortByDepth ps).Perm ps) ∧
    ((delete_duplicates cols fs).2.1).Sublist fs := by
  refine ⟨?_, sortByDepth_perm, delete_duplicates_sublist cols fs⟩
  induction cols generalizing fs with
  | nil => rfl
  | cons gp rest ih =>
    obtain ⟨h1, l1⟩ := gp
    rw [delete_duplicates, List.map_cons]
    by_cases hlen : 1 < l1.length
    · rw [if_pos hlen]
      simp only
      rw [if_pos hlen, ih]
    · rw [if_neg hlen]
      simp only
      rw [if_neg hlen, ih]

/-! ### Claim C9 -/

/-- Counterexample to C9: `hash_to_files` is a module-level global that no
run clears.  Calling `clean_up` twice in one process over the same two
duplicate files makes the second call's collision output (groups of four
paths) differ from a fresh call's output (groups of two), so the second
invocation's output depends on what the first one recorded. -/
theorem c9_counterexample :
    colsOfRun (clean_up md5c "/r" (some tcDup)
        (idxOfRun (clean_up md5c "/r" (some tcDup) [] false false []))
        false false []) ≠
      colsOfRun (clean_up md5c "/r" (some tcDup) [] false false []) := by
  decide

/-- C9 amended: only a process's *first* invocation starts from an empty
fingerprint index.  The index is module-global and is only ever appended
to: whatever list a digest key held when an invocation starts is a prefix
of the list it holds in that invocation's output, so successive in-process
invocations accumulate earlier paths instead of starting fresh. -/
theorem c9_amended_global_index_accumulates (md5 : List Nat → String)
    (root : String) (t : Option FSTree) (g : Index) (h : String)
    (ps : List String) (sc : Bool) (inputs : List String) (out : CleanUpOut)
    (hg : g.lookup h = some ps)
    (hrun : clean_up md5 root t g sc false inputs = .ok out) :
    ∃ qs, out.index.lookup h = some (ps ++ qs) := by
  rw [clean_up] at hrun
  simp only at hrun
  cases hagg : seqAggregate md5 (fsOf root t) g (get_file_paths root t) with
  | error e => rw [hagg] at hrun; exact Except.noConfusion hrun
  | ok m =>
    rw [hagg] at hrun
    simp only [if_neg (Bool.false_ne_true)] at hrun
    cases hrun
    exact seqAggregate_extends md5 (fsOf root t) (get_file_paths root t)
      g h ps m hg hagg

/-- The output of the second in-process invocation in the C9 witness run. -/
def c9out : CleanUpOut :=
  { index := [("[7]", ["/old", "/r/a", "/r/b"])],
    cols := [("[7]", ["/old", "/r/a", "/r/b"])],
    prompts := [], deleted := [],
    fs := [("/r/a", .readable [7]), ("/r/b", .readable [7])],
    confirmAnswer := none }

/-- Witness for C9's amended statement: a second in-process invocation over
`tcDup` starting from the index its first invocation left behind. -/
theorem c9_amended_global_index_accumulates_witness :
    ([("[7]", ["/old"])] : Index).lookup "[7]" = some ["/old"] ∧
    clean_up md5c "/r" (some tcDup) [("[7]", ["/old"])] false false [] = .ok c9out ∧
    ∃ qs, c9out.index.lookup "[7]" = some (["/old"] ++ qs) := by
  refine ⟨rfl, rfl, ?_⟩
  exact c9_amended_global_index_accumulates md5c "/r" (some tcDup)
    [("[7]", ["/old"])] "[7]" ["/old"] false [] c9out rfl rfl

/-! ### Claim C10 -/

/-- An entry holding a zero-byte (empty, readable) file. -/
def isEmptyFile (e : String × FileState) : Bool :=
  match e.2 with
  | .readable [] => true
  | _ => false

/-- The paths of the zero-byte files, in scan order. -/
def emptyPaths (fs : FS) : List String :=
  (fs.filter isEmptyFile).map Prod.fst

/-- The fingerprint index the v2 coordinator builds over the files of `fs`,
scanned in filesystem order. -/
def v2Index (md5 : List Nat → String) (fs : FS) : Index :=
  parAggregate md5 fs [] (fs.map Prod.fst)

/-- Filtering the keys of a keyed list is filtering its entries. -/
theorem filter_map_keys {b : Type} (fs : List (String × b)) (P : String → Bool)
    (Q : String × b → Bool) (hPQ : ∀ e ∈ fs, P e.1 = Q e) :
    (fs.map Prod.fst).filter P = (fs.filter Q).map Prod.fst := by
  rw [List.filter_map]
  congr 1
  exact List.filter_congr hPQ

/-- Every zero-byte file's entry looks up to empty readable content. -/
theorem lookup_of_mem_emptyPaths (fs : FS) (hnd : (fs.map Prod.fst).Nodup) :
    ∀ p ∈ emptyPaths fs, fs.lookup p = some (FileState.readable []) := by
  intro p hp
  rw [emptyPaths] at hp
  rcases List.mem_map.mp hp with ⟨e, he, hfst⟩
  have he2 := List.of_mem_filter he
  have hemem := List.mem_of_mem_filter he
  obtain ⟨q, st⟩ := e
  cases st with
  | readable c =>
    cases c with
    | nil =>
      cases hfst
      exact lookup_of_mem_nodup hnd hemem
    | cons a l => exact Bool.noConfusion he2
  | unreadable => exact Bool.noConfusion he2

/-- Pointwise: a scanned file's worker hash equals the empty digest exactly
when the file is zero-byte (assuming the digest does not collide onto the
empty content among the scanned files). -/
theorem hash_matches_empty_iff (md5 : List Nat → String) (fs : FS)
    (hnd : (fs.map Prod.fst).Nodup)
    (hinj : ∀ e ∈ fs, ∀ c, e.2 = FileState.readable c → md5 c = md5 [] → c = []) :
    ∀ e ∈ fs, (hashOf md5 fs e.1 == some (md5 [])) = isEmptyFile e := by
  intro e he
  obtain ⟨q, st⟩ := e
  have hl : fs.lookup q = some st := lookup_of_mem_nodup hnd he
  cases st with
  | unreadable =>
    have hof : hashOf md5 fs q = none := by
      rw [hashOf, process_file, readFile, hl]
    rw [show (q, FileState.unreadable).1 = q from rfl, hof]
    rfl
  | readable c =>
    have hof : hashOf md5 fs q = some (md5 c) := by
      rw [hashOf, process_file, readFile, hl]
      simp only
      rw [streamDigest, chunksOf8192_flatten]
    rw [show (q, FileState.readable c).1 = q from rfl, hof]
    cases c with
    | nil => simp [isEmptyFile]
    | cons a l =>
      have hneq : md5 (a :: l) ≠ md5 [] := fun hEq =>
        List.noConfusion (hinj (q, .readable (a :: l)) he (a :: l) rfl hEq)
      rw [show isEmptyFile (q, FileState.readable (a :: l)) = false from rfl]
      rw [beq_eq_false_iff_ne]
      intro hEq
      exact hneq (Option.some.inj hEq)

/-- The v2 index binds the empty digest to exactly the zero-byte files. -/
theorem v2Index_lookup_empty (md5 : List Nat → String) (fs : FS)
    (hnd : (fs.map Prod.fst).Nodup)
    (h2 : 2 ≤ (emptyPaths fs).length)
    (hinj : ∀ e ∈ fs, ∀ c, e.2 = FileState.readable c → md5 c = md5 [] → c = [])
    (hne : md5 [] ≠ "") :
    (v2Index md5 fs).lookup (md5 []) = some (emptyPaths fs) := by
  have hfilter : (fs.map Prod.fst).filter
      (fun p => (process_file md5 fs p).2 == some (md5 [])) = emptyPaths fs := by
    rw [emptyPaths]
    exact filter_map_keys fs _ isEmptyFile (hash_matches_empty_iff md5 fs hnd hinj)
  have hLL : lookupList (v2Index md5 fs) (md5 []) = emptyPaths fs := by
    have hstep : lookupList (v2Index md5 fs) (md5 []) =
        lookupList ([] : Index) (md5 []) ++
          hitsOn (md5 []) ((fs.map Prod.fst).map (process_file md5 fs)) :=
      lookupList_addAll (md5 []) hne ((fs.map Prod.fst).map (process_file md5 fs)) []
    rw [hstep, hitsOn_map (md5 []) (process_file md5 fs) (fun p => by
      rw [process_file]
      cases readFile fs p <;> rfl), hfilter]
    rfl
  cases hcase : (v2Index md5 fs).lookup (md5 []) with
  | none =>
    rw [lookupList, hcase] at hLL
    simp only [Option.getD_none] at hLL
    rw [← hLL] at h2
    simp at h2
  | some l =>
    rw [lookupList, hcase] at hLL
    simp only [Option.getD_some] at hLL
    rw [hLL]

/-- The filesystem left after a fully confirmed deletion of the v2 collision
groups of `fs`. -/
def fsAfterDelete (md5 : List Nat → String) (fs : FS) : FS :=
  (delete_duplicates (collisionsOf (v2Index md5 fs)) fs).2.1

/-- C10: every zero-byte file receives the digest of the empty byte
sequence; with at least two of them, they form a single duplicate group
(the group of the empty digest is exactly the zero-byte files, in scan
order), and a fully confirmed deletion removes all of them but the keeper:
the keeper's entry survives, every other empty file's lookup is gone, and
any surviving zero-byte file is the keeper.  The `hinj` premise is the
collision-freedom of MD5 on the scanned contents; `hne` records that MD5
hex digests are nonempty strings. -/
theorem c10_empty_files_one_group (md5 : List Nat → String) (fs : FS)
    (hnd : (fs.map Prod.fst).Nodup)
    (h2 : 2 ≤ (emptyPaths fs).length)
    (hinj : ∀ e ∈ fs, ∀ c, e.2 = FileState.readable c → md5 c = md5 [] → c = [])
    (hne : md5 [] ≠ "") :
    (∀ p ∈ emptyPaths fs,
        process_file md5 fs p = (p, some (md5 [])) ∧
        hash_file md5 fs p = .ok (md5 [])) ∧
    (collisionsOf (v2Index md5 fs)).lookup (md5 []) = some (emptyPaths fs) ∧
    ∃ k r, sortByDepth (emptyPaths fs) = k :: r ∧ k ∈ emptyPaths fs ∧
      (fsAfterDelete md5 fs).lookup k = some (FileState.readable []) ∧
      (∀ e ∈ r, (fsAfterDelete md5 fs).lookup e = none) ∧
      (∀ p, (fsAfterDelete md5 fs).lookup p = some (FileState.readable []) → p = k) := by
  have hmemE := lookup_of_mem_emptyPaths fs hnd
  have hA : ∀ p ∈ emptyPaths fs,
      process_file md5 fs p = (p, some (md5 [])) ∧
      hash_file md5 fs p = .ok (md5 []) := by
    intro p hp
    have hrf : readFile fs p = some [] := by
      rw [readFile, hmemE p hp]
    constructor
    · rw [process_file, hrf]
      rfl
    · rw [hash_file, hrf]
      rfl
  have hlookup := v2Index_lookup_empty md5 fs hnd h2 hinj hne
  have hlen : 1 < (emptyPaths fs).length := by omega
  have hcols : (collisionsOf (v2Index md5 fs)).lookup (md5 []) =
      some (emptyPaths fs) :=
    lookup_collisionsOf _ _ _ hlookup hlen
  have hEne : emptyPaths fs ≠ [] := by
    intro hnil
    rw [hnil] at h2
    simp at h2
  obtain ⟨k, r, hsort, hmin, hfind⟩ := sortByDepth_head_spec _ hEne
  have hperm : (k :: r).Perm (emptyPaths fs) := hsort ▸ sortByDepth_perm _
  have hkE : k ∈ emptyPaths fs := hperm.mem_iff.mp (List.mem_cons_self _ _)
  have hmnd : ((v2Index md5 fs).map Prod.fst).Nodup :=
    nodupKeys_addAll ((fs.map Prod.fst).map (process_file md5 fs)) [] (by simp)
  have hspecAll : ∀ gp ∈ collisionsOf (v2Index md5 fs),
      gp.2 = (fs.map Prod.fst).filter (fun p => hashOf md5 fs p == some gp.1) := by
    intro gp hgp
    have hm := (mem_collisionsOf hgp).1
    have hlk : (v2Index md5 fs).lookup gp.1 = some gp.2 :=
      lookup_of_mem_nodup hmnd (by rw [Prod.mk.eta]; exact hm)
    exact (parAggregate_lookup_spec md5 fs (fs.map Prod.fst) gp.1 gp.2 hlk).2
  have hchar : ∀ gp ∈ collisionsOf (v2Index md5 fs), ∀ p ∈ gp.2,
      hashOf md5 fs p = some gp.1 := by
    intro gp hgp p hp
    rw [hspecAll gp hgp] at hp
    have := List.of_mem_filter hp
    simpa using this
  have hgnodup : ∀ gp ∈ collisionsOf (v2Index md5 fs), gp.2.Nodup := by
    intro gp hgp
    rw [hspecAll gp hgp]
    exact hnd.filter _
  have hpres : ∀ gp ∈ collisionsOf (v2Index md5 fs), ∀ p ∈ gp.2,
      (fs.lookup p).isSome := by
    intro gp hgp p hp
    rw [hspecAll gp hgp] at hp
    exact lookup_isSome_of_mem_keys (List.mem_of_mem_filter hp)
  have hcolkeys : ((collisionsOf (v2Index md5 fs)).map Prod.fst).Nodup :=
    collisionsOf_nodupKeys hmnd
  have hgroupmem : ((md5 []), emptyPaths fs) ∈ collisionsOf (v2Index md5 fs) :=
    mem_of_lookup hcols
  obtain ⟨hkeep, hgone⟩ := delete_duplicates_target (hashOf md5 fs)
    (collisionsOf (v2Index md5 fs)) fs hnd hcolkeys hchar hgnodup hpres
    (md5 []) (emptyPaths fs) k r hgroupmem hlen hsort
  refine ⟨hA, hcols, k, r, hsort, hkE, ?_, hgone, ?_⟩
  · rw [fsAfterDelete, hkeep]
    exact hmemE k hkE
  · intro p hp
    have hmem2 : (p, FileState.readable []) ∈ fsAfterDelete md5 fs :=
      mem_of_lookup hp
    have hmemfs : (p, FileState.readable []) ∈ fs :=
      (delete_duplicates_sublist _ fs).subset hmem2
    have hpE : p ∈ emptyPaths fs := by
      rw [emptyPaths]
      exact List.mem_map.mpr ⟨(p, .readable []),
        List.mem_filter.mpr ⟨hmemfs, rfl⟩, rfl⟩
    rcases List.mem_cons.mp (hperm.mem_iff.mpr hpE) with h | h
    · exact h
    · exfalso
      have := hgone p h
      rw [fsAfterDelete] at hp
      rw [this] at hp
      exact Option.noConfusion hp

/-- A concrete filesystem with two zero-byte files and one non-empty file. -/
def fsW : FS :=
  [("/r/a", FileState.readable []), ("/r/b", FileState.readable []),
   ("/r/c", FileState.readable [1])]

/-- Witness for C10 over `fsW`: the two empty files form the single group
of the empty digest and the confirmed deletion keeps exactly `"/r/a"`. -/
theorem c10_empty_files_one_group_witness :
    (fsW.map Prod.fst).Nodup ∧
    2 ≤ (emptyPaths fsW).length ∧
    md5c [] ≠ "" ∧
    ((∀ p ∈ emptyPaths fsW,
        process_file md5c fsW p = (p, some (md5c [])) ∧
        hash_file md5c fsW p = .ok (md5c [])) ∧
     (collisionsOf (v2Index md5c fsW)).lookup (md5c []) = some (emptyPaths fsW) ∧
     ∃ k r, sortByDepth (emptyPaths fsW) = k :: r ∧ k ∈ emptyPaths fsW ∧
       (fsAfterDelete md5c fsW).lookup k = some (FileState.readable []) ∧
       (∀ e ∈ r, (fsAfterDelete md5c fsW).lookup e = none) ∧
       (∀ p, (fsAfterDelete md5c fsW).lookup p = some (FileState.readable []) → p = k)) := by
  have hinjW : ∀ e ∈ fsW, ∀ c, e.2 = FileState.readable c → md5c c = md5c [] → c = [] := by
    intro e he c hc hm
    simp only [fsW, List.mem_cons, List.not_mem_nil, or_false] at he
    rcases he with rfl | rfl | rfl
    · exact (FileState.readable.inj hc).symm
    · exact (FileState.readable.inj hc).symm
    · have hc1 : c = [1] := (FileState.readable.inj hc).symm
      subst hc1
      exact absurd hm (by decide)
  refine ⟨by decide, by decide, by decide, ?_⟩
  exact c10_empty_files_one_group md5c fsW (by decide) (by decide) hinjW (by decide)
